import Mathlib

/-!
Verification of the restfs tombstone-based soft-delete object store.

The Go service (main.go, current evolution) exposes a data directory over
HTTP: GET reads a file or lists a directory, PUT writes a file, DELETE
soft-deletes by creating a zero-byte tombstone file at the sibling path
obtained by appending the suffix ".restfs-deleted".  A background GC
worker walks the tree and resolves tombstones.

The filesystem is modelled shallowly as an association list from full
paths (lists of characters, so that suffix arithmetic stays in the List
library) to file metadata.  Each Go function that the claims touch is
translated into a Lean definition of the same name.
-/

namespace Restfs

/-- A path in the data tree, as the list of characters of the Go string. -/
abbrev Path := List Char

/-- Convenience: the character list of a string literal (for concrete tests). -/
def pstr (s : String) : Path := s.data

/-- The tombstone suffix, Go constant `tombstone = ".restfs-deleted"`. -/
def tombSuffix : Path := pstr ".restfs-deleted"

/-- The metadata the Go code observes through `os.FileInfo`, plus the byte
content of the file (bytes are modelled as naturals).  `content` is
meaningful only when `isDir = false`. -/
structure FileInfo where
  isDir : Bool
  modTime : Nat
  content : List Nat
deriving DecidableEq

/-- The state of the data directory: an association list from full path to
file metadata.  Association-list shadowing never arises because every
update first erases the key. -/
abbrev FS := List (Path × FileInfo)

/-- Model of `os.Stat`: look a path up in the tree.  `none` models the
IsNotExist error (other stat errors do not arise in the model). -/
def statRaw : FS → Path → Option FileInfo
  | [], _ => none
  | e :: t, p => if e.1 = p then some e.2 else statRaw t p

/-- Model of `os.Remove`: drop the entry at a path (removing a missing
path is tolerated by the GC's remove wrapper and is a no-op here). -/
def eraseKey : FS → Path → FS
  | [], _ => []
  | e :: t, p => if e.1 = p then eraseKey t p else e :: eraseKey t p

/-- Model of creating-or-truncating the file at a path with fresh metadata
(`os.Create` / `os.OpenFile` with `O_CREATE|O_TRUNC`). -/
def setFile (fs : FS) (p : Path) (fi : FileInfo) : FS :=
  (p, fi) :: eraseKey fs p

/-- Go `strings.HasSuffix(name, tombstone)`. -/
def hasTombSuffix (p : Path) : Bool := tombSuffix.isSuffixOf p

/-- Go `name[:len(name)-len(tombstone)]`: strip the tombstone suffix. -/
def stripTomb (p : Path) : Path := p.take (p.length - tombSuffix.length)

/-- Go `stat` (current evolution): raw-stat the path; a directory is always
returned; a file is returned only when no tombstone sibling exists or the
file's mtime is strictly after the tombstone's (`astat.ModTime().After(bstat.ModTime())`);
otherwise the path reads as absent. -/
def stat (fs : FS) (p : Path) : Option FileInfo :=
  match statRaw fs p with
  | none => none
  | some astat =>
    if astat.isDir then some astat
    else
      match statRaw fs (p ++ tombSuffix) with
      | none => some astat
      | some bstat => if bstat.modTime < astat.modTime then some astat else none

/-- Go `fileAvailable` (first evolution): same timestamp comparison, but with
no special case for directories. -/
def fileAvailable (fs : FS) (p : Path) : Bool :=
  match statRaw fs p with
  | none => false
  | some astat =>
    match statRaw fs (p ++ tombSuffix) with
    | none => true
    | some bstat => bstat.modTime < astat.modTime

/-- The GET branch succeeds on `p` as a leaf iff `stat` returns a non-directory. -/
def getAsLeaf (fs : FS) (p : Path) : Bool :=
  match stat fs p with
  | none => false
  | some fi => !fi.isDir

/-- GET on a leaf: the bytes served by `http.ServeFile` when `stat` shows a
visible non-directory, `none` when the handler answers 404 (or serves a
directory listing instead of bytes). -/
def readFile (fs : FS) (p : Path) : Option (List Nat) :=
  match stat fs p with
  | none => none
  | some fi => if fi.isDir then none else some fi.content

/-- Go `remove`: soft delete by `os.Create(fullpath + tombstone)` — create or
truncate a zero-byte tombstone file whose mtime is the current time. -/
def remove (fs : FS) (p : Path) (now : Nat) : FS :=
  setFile fs (p ++ tombSuffix) { isDir := false, modTime := now, content := [] }

/-- The parent-directory chain that `os.MkdirAll(path.Split(p))` creates: for
each separator in `p`, the prefix before it. -/
def parents (p : Path) : List Path :=
  (List.range p.length).filterMap fun i =>
    if p.get? i = some '/' then some (p.take i) else none

/-- Go `os.MkdirAll`: create each missing directory of the chain; existing
entries are left untouched.  (The error when a parent exists as a plain file
is unreachable from the handler, whose success path requires `p` itself to
exist.) -/
def mkdirAll (fs : FS) (ds : List Path) (now : Nat) : FS :=
  match ds with
  | [] => fs
  | d :: t =>
    match statRaw fs d with
    | some _ => mkdirAll fs t now
    | none => mkdirAll (setFile fs d { isDir := true, modTime := now, content := [] }) t now

/-- Go `saveFile` (current evolution): `MkdirAll` on the parent chain, then
`OpenFile(p, O_CREATE|O_RDWR|O_TRUNC)` and copy the whole request body. -/
def saveFile (fs : FS) (p : Path) (d : List Nat) (now : Nat) : FS :=
  setFile (mkdirAll fs (parents p) now) p { isDir := false, modTime := now, content := d }

/-- Outcome of a request handler.  `crash` models a Go runtime panic (the
surrounding Recoverer middleware turns it into a 500, but no handler code
after the panic point runs). -/
inductive HStatus where
  | ok
  | badRequest
  | crash
deriving DecidableEq

/-- The PUT branch of `restfs.ServeHTTP` (current evolution):
`fi, err = os.Stat(fullpath)` followed immediately by `fi.IsDir()` with no
error check.  When the path does not exist, `os.Stat` returns a nil
`os.FileInfo`, and the `fi.IsDir()` call dereferences nil — modelled as
`crash`; nothing is written in that case. -/
def putHandler (fs : FS) (p : Path) (d : List Nat) (now : Nat) : HStatus × FS :=
  match statRaw fs p with
  | none => (HStatus.crash, fs)
  | some fi =>
    if fi.isDir then (HStatus.badRequest, fs)
    else (HStatus.ok, saveFile fs p d now)

/-- Go `strings.HasPrefix(q, root + "/") || q == root`: is `q` at or under
the directory `root`?  Used to model which entries `filepath.Walk` visits. -/
def underRoot (root q : Path) : Bool := q == root || (root ++ ['/']).isPrefixOf q

/-- The entries `filepath.Walk(root)` visits, read off the tree (walk order
is lexical in Go; no theorem here depends on the order). -/
def walkEntries (fs : FS) (root : Path) : FS :=
  fs.filter fun e => underRoot root e.1

/-- The body of the `filepath.Walk` callback in Go `removeAll`: directories
and entries already carrying the tombstone suffix are skipped, every other
entry is tombstoned via `remove`. -/
def removeAllStep (now : Nat) (fs : FS) (e : Path × FileInfo) : FS :=
  if e.2.isDir || hasTombSuffix e.1 then fs else remove fs e.1 now

/-- Go `removeAll`: walk the subtree, tombstoning every non-directory,
non-tombstone entry. -/
def removeAll (fs : FS) (root : Path) (now : Nat) : FS :=
  (walkEntries fs root).foldl (removeAllStep now) fs

/-- The DELETE branch of `restfs.ServeHTTP` (current evolution): a missing
path is a no-op success; a directory is rejected with 400 unless
`recursive=true`, in which case the subtree is walked; a leaf is tombstoned. -/
def deleteHandler (fs : FS) (p : Path) (recursive : Bool) (now : Nat) : HStatus × FS :=
  match statRaw fs p with
  | none => (HStatus.ok, fs)
  | some fi =>
    if fi.isDir then
      if recursive then (HStatus.ok, removeAll fs p now)
      else (HStatus.badRequest, fs)
    else (HStatus.ok, remove fs p now)

/-- The body of the GC walk callback in Go `gc.loop` for one encountered
tombstone file `name` (whose walk-provided info is `tstat`): stat the guarded
object at the suffix-stripped path; if present and not strictly newer than the
tombstone, remove the object, then remove the tombstone; if present and
strictly newer, or absent, remove only the tombstone. -/
def gcStep (fs : FS) (name : Path) (tstat : FileInfo) : FS :=
  match statRaw fs (stripTomb name) with
  | some fstat =>
    if tstat.modTime < fstat.modTime then eraseKey fs name
    else eraseKey (eraseKey fs (stripTomb name)) name
  | none => eraseKey fs name

/-- One GC pass of Go `gc.loop`: every non-directory entry of the walk whose
name carries the tombstone suffix is resolved by `gcStep` (the walk snapshot
is taken up front; tombstones the pass itself creates do not arise, since GC
only removes). -/
def gcPass (fs : FS) : FS :=
  (fs.filter fun e => !e.2.isDir && hasTombSuffix e.1).foldl
    (fun a e => gcStep a e.1 e.2) fs

/-- The tombstones map built by the first loop of Go `serveFileList`, as a
lookup: the info of the entry whose suffix-stripped name is `base`.  (Go
keeps the last matching entry, this keeps the first; directory listings have
unique names and suffix-stripping is injective on suffixed names, so at most
one entry matches and the two agree.) -/
def tombLookup (fis : FS) (base : Path) : Option FileInfo :=
  (fis.find? fun e => hasTombSuffix e.1 && stripTomb e.1 == base).map (·.2)

/-- What Go `serveFileList` emits for one raw entry `e` of the directory
whose raw enumeration is `fis`: tombstone-suffixed entries are skipped;
directories gain a trailing separator; a file is emitted only when no
tombstone guards its name or its mtime is strictly after the tombstone's. -/
def listEmit (fis : FS) (e : Path × FileInfo) : Option Path :=
  if hasTombSuffix e.1 then none
  else if e.2.isDir then some (e.1 ++ ['/'])
  else
    match tombLookup fis e.1 with
    | some ts => if ts.modTime < e.2.modTime then some e.1 else none
    | none => some e.1

/-- Go `serveFileList`: one line per emitted entry, in raw enumeration
order. -/
def serveFileList (fis : FS) : List Path :=
  fis.filterMap (listEmit fis)

/-- The wire format of a listing: each name followed by a newline
(`fmt.Fprintf(w, "%s\n", name)`). -/
def listBody (fis : FS) : List Char :=
  ((serveFileList fis).map fun n => n ++ ['\n']).flatten

/-- The state of the GC trigger: how many signals sit in the `invoke`
channel (created with capacity 1) and whether the single worker goroutine is
inside a pass. -/
structure GCState where
  queued : Nat
  running : Bool
deriving DecidableEq

/-- Initial trigger state: empty channel, idle worker. -/
def initGC : GCState := { queued := 0, running := false }

/-- Events of the trigger protocol: a `gc.Start` call, the worker receiving
a signal and beginning a pass, and the worker finishing a pass. -/
inductive GCEvent where
  | request
  | beginPass
  | endPass

/-- One step of the trigger protocol.  `request` is Go `gc.Start`: a select
with a default case, i.e. a non-blocking send that is dropped when the
one-slot channel is full.  `beginPass` is the worker (a single goroutine
ranging over the channel) taking a signal, possible only when it is idle.
`endPass` is the worker finishing its pass. -/
def gcTrigger : GCState → GCEvent → GCState
  | s, GCEvent.request => if s.queued < 1 then { s with queued := s.queued + 1 } else s
  | s, GCEvent.beginPass =>
    if s.running = false ∧ 0 < s.queued then { queued := s.queued - 1, running := true }
    else s
  | s, GCEvent.endPass => { s with running := false }

/-- The trigger state after an arbitrary interleaving of events from start. -/
def runEvents (es : List GCEvent) : GCState := es.foldl gcTrigger initGC

/-- The visibility predicate as the spec words it: a file exists at `p`, and
either no tombstone exists at the suffixed sibling path or the object's
timestamp is strictly later than the tombstone's. -/
def visibleSpec (fs : FS) (p : Path) : Prop :=
  ∃ fi, statRaw fs p = some fi ∧ fi.isDir = false ∧
    (statRaw fs (p ++ tombSuffix) = none ∨
      ∃ tfi, statRaw fs (p ++ tombSuffix) = some tfi ∧ tfi.modTime < fi.modTime)

end Restfs

namespace Restfs

theorem statRaw_eraseKey (fs : FS) (p q : Path) :
    statRaw (eraseKey fs p) q = if q = p then none else statRaw fs q := by
  induction fs with
  | nil => simp [statRaw, eraseKey]
  | cons e t ih =>
    simp only [eraseKey, statRaw]
    by_cases h2 : q = p
    · subst h2
      by_cases h1 : e.1 = q <;> simp [h1, ih, statRaw]
    · by_cases h1 : e.1 = p
      · have h3 : ¬ p = q := fun h => h2 h.symm
        simp [h1, h2, h3, ih]
      · by_cases h3 : e.1 = q <;> simp [h1, h3, h2, ih, statRaw]

theorem statRaw_setFile (fs : FS) (p q : Path) (fi : FileInfo) :
    statRaw (setFile fs p fi) q = if q = p then some fi else statRaw fs q := by
  by_cases h : q = p <;> simp [setFile, statRaw, h, statRaw_eraseKey]
  exact fun h2 => absurd h2.symm h

theorem tombSuffix_length : tombSuffix.length = 15 := by decide

theorem length_le_of_tombSuffix (p : Path) (h : hasTombSuffix p = true) :
    tombSuffix.length ≤ p.length := by
  rw [hasTombSuffix] at h
  have hs : tombSuffix <:+ p := List.isSuffixOf_iff_suffix.mp h
  exact hs.length_le

theorem stripTomb_ne (p : Path) (h : hasTombSuffix p = true) : stripTomb p ≠ p := by
  intro heq
  have hlen := length_le_of_tombSuffix p h
  have := congrArg List.length heq
  rw [stripTomb, List.length_take] at this
  rw [tombSuffix_length] at this hlen
  omega

theorem append_tombSuffix_ne (p : Path) : p ++ tombSuffix ≠ p := by
  intro h
  have := congrArg List.length h
  rw [List.length_append, tombSuffix_length] at this
  omega

theorem ne_append_tombSuffix (p : Path) : p ≠ p ++ tombSuffix :=
  fun h => append_tombSuffix_ne p h.symm

theorem mkdirAll_preserves (ds : List Path) (fs : FS) (now : Nat) (q : Path) (x : FileInfo)
    (h : statRaw fs q = some x) : statRaw (mkdirAll fs ds now) q = some x := by
  induction ds generalizing fs with
  | nil => simpa [mkdirAll]
  | cons d t ih =>
    rw [mkdirAll]
    cases hd : statRaw fs d with
    | some y => exact ih fs h
    | none =>
      apply ih
      rw [statRaw_setFile]
      have hqd : ¬ q = d := by
        intro he
        rw [he, hd] at h
        cases h
      simp [hqd, h]

theorem gcStep_eq_of_none (fs : FS) (name : Path) (tstat : FileInfo)
    (h : statRaw fs (stripTomb name) = none) :
    gcStep fs name tstat = eraseKey fs name := by
  simp [gcStep, h]

theorem gcStep_eq_of_stale (fs : FS) (name : Path) (tstat fstat : FileInfo)
    (h : statRaw fs (stripTomb name) = some fstat)
    (hm : fstat.modTime ≤ tstat.modTime) :
    gcStep fs name tstat = eraseKey (eraseKey fs (stripTomb name)) name := by
  have : ¬ tstat.modTime < fstat.modTime := by omega
  simp [gcStep, h, this]

theorem gcStep_eq_of_fresh (fs : FS) (name : Path) (tstat fstat : FileInfo)
    (h : statRaw fs (stripTomb name) = some fstat)
    (hm : tstat.modTime < fstat.modTime) :
    gcStep fs name tstat = eraseKey fs name := by
  simp [gcStep, h, hm]

theorem statRaw_gcStep_name (fs : FS) (name : Path) (tstat : FileInfo) :
    statRaw (gcStep fs name tstat) name = none := by
  unfold gcStep
  cases h : statRaw fs (stripTomb name) with
  | none => simp [statRaw_eraseKey]
  | some fstat =>
    by_cases hm : tstat.modTime < fstat.modTime <;> simp [hm, statRaw_eraseKey]

theorem statRaw_gcStep_stripped_stale (fs : FS) (name : Path) (tstat fstat : FileInfo)
    (hsuf : hasTombSuffix name = true)
    (h : statRaw fs (stripTomb name) = some fstat)
    (hm : fstat.modTime ≤ tstat.modTime) :
    statRaw (gcStep fs name tstat) (stripTomb name) = none := by
  rw [gcStep_eq_of_stale fs name tstat fstat h hm, statRaw_eraseKey]
  by_cases he : stripTomb name = name
  · exact absurd he (stripTomb_ne name hsuf)
  · simp [he, statRaw_eraseKey]

/-- C1: an object at `p` is visible to GET as a leaf iff a file (non-directory)
exists at `p` and either no tombstone exists at the suffixed sibling path or
the object's mtime is strictly later than the tombstone's; equal mtimes read
as not visible. -/
theorem c1_visible_iff (fs : FS) (p : Path) :
    getAsLeaf fs p = true ↔ visibleSpec fs p := by
  unfold getAsLeaf stat visibleSpec
  cases ha : statRaw fs p with
  | none => simp
  | some astat =>
    cases hb : statRaw fs (p ++ tombSuffix) with
    | none =>
      by_cases hd : astat.isDir <;> simp [hd]
    | some bstat =>
      by_cases hd : astat.isDir
      · simp [hd]
      · by_cases hm : bstat.modTime < astat.modTime <;> simp [hd, hm]

/-- C2: the GC pass resolves every encountered tombstone into exactly one of
three outcomes driven by a stat of the guarded object (suffix-stripped path):
absent object — only the tombstone removed; object not strictly newer — object
removed, then tombstone removed; object strictly newer — only the tombstone
removed and the object preserved. -/
theorem c2_gc_resolution (fs : FS) (name : Path) (tstat : FileInfo)
    (hsuf : hasTombSuffix name = true) :
    (statRaw fs (stripTomb name) = none →
        gcStep fs name tstat = eraseKey fs name ∧
        statRaw (gcStep fs name tstat) name = none) ∧
    (∀ fstat, statRaw fs (stripTomb name) = some fstat →
        fstat.modTime ≤ tstat.modTime →
        gcStep fs name tstat = eraseKey (eraseKey fs (stripTomb name)) name ∧
        statRaw (gcStep fs name tstat) (stripTomb name) = none ∧
        statRaw (gcStep fs name tstat) name = none) ∧
    (∀ fstat, statRaw fs (stripTomb name) = some fstat →
        tstat.modTime < fstat.modTime →
        gcStep fs name tstat = eraseKey fs name ∧
        statRaw (gcStep fs name tstat) (stripTomb name) = some fstat ∧
        statRaw (gcStep fs name tstat) name = none) := by
  refine ⟨fun h => ⟨gcStep_eq_of_none fs name tstat h, statRaw_gcStep_name fs name tstat⟩,
    fun fstat h hm => ⟨gcStep_eq_of_stale fs name tstat fstat h hm,
      statRaw_gcStep_stripped_stale fs name tstat fstat hsuf h hm,
      statRaw_gcStep_name fs name tstat⟩,
    fun fstat h hm => ⟨gcStep_eq_of_fresh fs name tstat fstat h hm, ?_,
      statRaw_gcStep_name fs name tstat⟩⟩
  rw [gcStep_eq_of_fresh fs name tstat fstat h hm, statRaw_eraseKey]
  have hne : ¬ stripTomb name = name := stripTomb_ne name hsuf
  simp [hne, h]

/-- Witness for C2: a tombstone at "a.restfs-deleted" with mtime 5 whose
object "a" has the same mtime 5 is resolved by removing the object and then
the tombstone. -/
theorem c2_gc_resolution_witness :
    gcStep [(pstr "a", ⟨false, 5, [1]⟩), (pstr "a.restfs-deleted", ⟨false, 5, []⟩)]
        (pstr "a.restfs-deleted") ⟨false, 5, []⟩ =
      eraseKey (eraseKey [(pstr "a", ⟨false, 5, [1]⟩), (pstr "a.restfs-deleted", ⟨false, 5, []⟩)]
        (stripTomb (pstr "a.restfs-deleted"))) (pstr "a.restfs-deleted") :=
  ((c2_gc_resolution _ _ _ (by decide)).2.1 ⟨false, 5, [1]⟩ (by decide) (by decide)).1

/-- C3 (code bug): the claim says a write to a path at which no file yet
exists succeeds; but the PUT branch calls `fi.IsDir()` on the nil
`os.FileInfo` returned by the failed `os.Stat`, so the handler panics and
nothing is written.  Evaluated here at the failing input: a PUT of bytes
"hi" to "a.txt" on an empty data directory. -/
theorem c3_put_missing_path_crashes :
    putHandler [] (pstr "a.txt") [104, 105] 7 = (HStatus.crash, []) := rfl

/-- C4: resurrection — after a soft delete at time t1 and a rewrite with
bytes d2 at a strictly later time t2, GET returns d2 with success before any
GC pass, and the tombstone is still physically present (no explicit
removal). -/
theorem c4_resurrection (fs : FS) (p : Path) (fi : FileInfo) (d2 : List Nat) (t1 t2 : Nat)
    (hp : statRaw fs p = some fi) (hnd : fi.isDir = false) (hlt : t1 < t2) :
    (putHandler (deleteHandler fs p false t1).2 p d2 t2).1 = HStatus.ok ∧
    readFile (putHandler (deleteHandler fs p false t1).2 p d2 t2).2 p = some d2 ∧
    statRaw (putHandler (deleteHandler fs p false t1).2 p d2 t2).2 (p ++ tombSuffix) =
      some { isDir := false, modTime := t1, content := [] } := by
  have hdel : (deleteHandler fs p false t1).2 = remove fs p t1 := by
    simp [deleteHandler, hp, hnd]
  have hstat1 : statRaw (remove fs p t1) p = some fi := by
    rw [remove, statRaw_setFile]
    simp [ne_append_tombSuffix p, hp]
  have htomb1 : statRaw (remove fs p t1) (p ++ tombSuffix) =
      some { isDir := false, modTime := t1, content := [] } := by
    rw [remove, statRaw_setFile]
    simp
  have hput : putHandler (remove fs p t1) p d2 t2 =
      (HStatus.ok, saveFile (remove fs p t1) p d2 t2) := by
    simp [putHandler, hstat1, hnd]
  rw [hdel, hput]
  have hstat2 : statRaw (saveFile (remove fs p t1) p d2 t2) p =
      some { isDir := false, modTime := t2, content := d2 } := by
    rw [saveFile, statRaw_setFile]
    simp
  have htomb2 : statRaw (saveFile (remove fs p t1) p d2 t2) (p ++ tombSuffix) =
      some { isDir := false, modTime := t1, content := [] } := by
    rw [saveFile, statRaw_setFile, if_neg (append_tombSuffix_ne p)]
    exact mkdirAll_preserves _ _ _ _ _ htomb1
  refine ⟨rfl, ?_, htomb2⟩
  rw [readFile, stat, hstat2]
  simp [htomb2, hlt]

/-- Witness for C4: the file "f" (mtime 1, bytes [5]) is soft-deleted at
time 2 and rewritten with bytes [6] at time 3; GET then serves [6] while the
tombstone entry from time 2 is still on disk. -/
theorem c4_resurrection_witness :
    (putHandler (deleteHandler [(pstr "f", ⟨false, 1, [5]⟩)] (pstr "f") false 2).2
        (pstr "f") [6] 3).1 = HStatus.ok ∧
    readFile (putHandler (deleteHandler [(pstr "f", ⟨false, 1, [5]⟩)] (pstr "f") false 2).2
        (pstr "f") [6] 3).2 (pstr "f") = some [6] ∧
    statRaw (putHandler (deleteHandler [(pstr "f", ⟨false, 1, [5]⟩)] (pstr "f") false 2).2
        (pstr "f") [6] 3).2 (pstr "f" ++ tombSuffix) =
      some { isDir := false, modTime := 2, content := [] } :=
  c4_resurrection _ _ ⟨false, 1, [5]⟩ [6] 2 3 (by decide) (by decide) (by decide)

/-- C5: a soft delete of a visible leaf succeeds and only creates a zero-byte
tombstone at the suffixed sibling path; the path then reads as NotFound while
the raw object entry (metadata and bytes) is physically untouched. -/
theorem c5_soft_delete (fs : FS) (p : Path) (fi : FileInfo) (now : Nat)
    (hvis : getAsLeaf fs p = true)
    (hp : statRaw fs p = some fi) (hnd : fi.isDir = false) (hm : fi.modTime ≤ now) :
    (deleteHandler fs p false now).1 = HStatus.ok ∧
    (deleteHandler fs p false now).2 =
      setFile fs (p ++ tombSuffix) { isDir := false, modTime := now, content := [] } ∧
    statRaw (deleteHandler fs p false now).2 (p ++ tombSuffix) =
      some { isDir := false, modTime := now, content := [] } ∧
    (∀ q, q ≠ p ++ tombSuffix → statRaw (deleteHandler fs p false now).2 q = statRaw fs q) ∧
    statRaw (deleteHandler fs p false now).2 p = some fi ∧
    readFile (deleteHandler fs p false now).2 p = none := by
  have hdel : deleteHandler fs p false now = (HStatus.ok, remove fs p now) := by
    simp [deleteHandler, hp, hnd]
  rw [hdel]
  have hframe : ∀ q, q ≠ p ++ tombSuffix → statRaw (remove fs p now) q = statRaw fs q := by
    intro q hq
    rw [remove, statRaw_setFile]
    simp [hq]
  have hpstat : statRaw (remove fs p now) p = some fi := by
    rw [hframe p (ne_append_tombSuffix p)]
    exact hp
  have htomb : statRaw (remove fs p now) (p ++ tombSuffix) =
      some { isDir := false, modTime := now, content := [] } := by
    rw [remove, statRaw_setFile]
    simp
  refine ⟨rfl, rfl, htomb, hframe, hpstat, ?_⟩
  rw [readFile, stat, hpstat]
  have : ¬ ({ isDir := false, modTime := now, content := ([] : List Nat) } : FileInfo).modTime
      < fi.modTime := by
    simp
    omega
  simp [hnd, htomb, this]

/-- Witness for C5: deleting the visible leaf "a" (mtime 3, bytes [7]) at
time 4 answers Ok, writes the zero-byte tombstone "a.restfs-deleted", leaves
the raw entry of "a" in place, and makes GET on "a" answer NotFound. -/
theorem c5_soft_delete_witness :
    (deleteHandler [(pstr "a", ⟨false, 3, [7]⟩)] (pstr "a") false 4).1 = HStatus.ok ∧
    (deleteHandler [(pstr "a", ⟨false, 3, [7]⟩)] (pstr "a") false 4).2 =
      setFile [(pstr "a", ⟨false, 3, [7]⟩)] (pstr "a" ++ tombSuffix)
        { isDir := false, modTime := 4, content := [] } ∧
    statRaw (deleteHandler [(pstr "a", ⟨false, 3, [7]⟩)] (pstr "a") false 4).2
        (pstr "a" ++ tombSuffix) = some { isDir := false, modTime := 4, content := [] } ∧
    statRaw (deleteHandler [(pstr "a", ⟨false, 3, [7]⟩)] (pstr "a") false 4).2 (pstr "a") =
      some ⟨false, 3, [7]⟩ ∧
    readFile (deleteHandler [(pstr "a", ⟨false, 3, [7]⟩)] (pstr "a") false 4).2 (pstr "a") =
      none := by
  have h := c5_soft_delete [(pstr "a", ⟨false, 3, [7]⟩)] (pstr "a") ⟨false, 3, [7]⟩ 4
    (by decide) (by decide) (by decide) (by decide)
  exact ⟨h.1, h.2.1, h.2.2.1, h.2.2.2.2.1, h.2.2.2.2.2⟩

/-- C6: a non-recursive delete of an existing non-empty directory answers
BadRequest and returns the tree unchanged, so every contained entry stays
listable and readable exactly as before. -/
theorem c6_dir_delete_rejected (fs : FS) (p : Path) (fi : FileInfo) (now : Nat)
    (hp : statRaw fs p = some fi) (hd : fi.isDir = true)
    (hne : ∃ e ∈ fs, e.1 ≠ p ∧ underRoot p e.1 = true) :
    deleteHandler fs p false now = (HStatus.badRequest, fs) := by
  simp [deleteHandler, hp, hd]

/-- Witness for C6: deleting the directory "d", which contains the file
"d/a", without recursive=true answers BadRequest and leaves the tree
untouched. -/
theorem c6_dir_delete_rejected_witness :
    deleteHandler [(pstr "d", ⟨true, 0, []⟩), (pstr "d/a", ⟨false, 1, [2]⟩)]
        (pstr "d") false 9 =
      (HStatus.badRequest, [(pstr "d", ⟨true, 0, []⟩), (pstr "d/a", ⟨false, 1, [2]⟩)]) :=
  c6_dir_delete_rejected _ _ ⟨true, 0, []⟩ 9 (by decide) (by decide)
    ⟨(pstr "d/a", ⟨false, 1, [2]⟩), by decide, by decide, by decide⟩

theorem listEmit_eq_some (fis : FS) (e : Path × FileInfo) (x : Path) :
    listEmit fis e = some x ↔
      hasTombSuffix e.1 = false ∧
        ((e.2.isDir = true ∧ x = e.1 ++ ['/']) ∨
         (e.2.isDir = false ∧ x = e.1 ∧
           (tombLookup fis e.1 = none ∨
            ∃ ts, tombLookup fis e.1 = some ts ∧ ts.modTime < e.2.modTime))) := by
  unfold listEmit
  by_cases h1 : hasTombSuffix e.1
  · simp [h1]
  · by_cases h2 : e.2.isDir
    · simp [h1, h2, eq_comm]
    · cases ht : tombLookup fis e.1 with
      | none => simp [h1, h2, ht, eq_comm]
      | some ts =>
        by_cases hm : ts.modTime < e.2.modTime <;> simp [h1, h2, ht, hm, eq_comm]

/-- C7: a name appears in the listing iff it comes from a raw entry that is
not itself tombstone-suffixed, and is either a subdirectory (always emitted,
with a trailing separator appended) or a file with no tombstone for its base
name or with mtime strictly after that tombstone's mtime. -/
theorem c7_listing_characterization (fis : FS) (x : Path) :
    x ∈ serveFileList fis ↔
      ∃ e, e ∈ fis ∧ hasTombSuffix e.1 = false ∧
        ((e.2.isDir = true ∧ x = e.1 ++ ['/']) ∨
         (e.2.isDir = false ∧ x = e.1 ∧
           (tombLookup fis e.1 = none ∨
            ∃ ts, tombLookup fis e.1 = some ts ∧ ts.modTime < e.2.modTime))) := by
  simp only [serveFileList, List.mem_filterMap]
  constructor
  · rintro ⟨e, he, hemit⟩
    exact ⟨e, he, (listEmit_eq_some fis e x).mp hemit⟩
  · rintro ⟨e, he, hx⟩
    exact ⟨e, he, (listEmit_eq_some fis e x).mpr hx⟩

theorem gcTrigger_queued_le (es : List GCEvent) (s : GCState) (h : s.queued ≤ 1) :
    (es.foldl gcTrigger s).queued ≤ 1 := by
  induction es generalizing s with
  | nil => simpa
  | cons e t ih =>
    rw [List.foldl_cons]
    apply ih
    cases e with
    | request =>
      by_cases hq : s.queued < 1
      · simp [gcTrigger, hq]
        omega
      · simp [gcTrigger, hq]
        exact h
    | beginPass =>
      by_cases hb : s.running = false ∧ 0 < s.queued
      · simp [gcTrigger, hb]
        omega
      · simp [gcTrigger, hb]
        exact h
    | endPass => simpa [gcTrigger]

/-- C8: the trigger channel holds at most one pending signal over every
interleaving of requests and worker steps; a request arriving with the slot
full changes nothing; and a worker already inside a pass never begins a
second one (the single worker serializes passes). -/
theorem c8_trigger_coalescing :
    (∀ es : List GCEvent, (runEvents es).queued ≤ 1) ∧
    (∀ b : Bool, gcTrigger { queued := 1, running := b } GCEvent.request =
      { queued := 1, running := b }) ∧
    (∀ q : Nat, gcTrigger { queued := q, running := true } GCEvent.beginPass =
      { queued := q, running := true }) := by
  refine ⟨fun es => gcTrigger_queued_le es initGC (by simp [initGC]), ?_, ?_⟩
  · intro b
    simp [gcTrigger]
  · intro q
    simp [gcTrigger]

theorem filterMap_sublist_map {α β : Type} (f : α → Option β) (g : α → β)
    (hfg : ∀ a, f a = none ∨ f a = some (g a)) (l : List α) :
    List.Sublist (l.filterMap f) (l.map g) := by
  induction l with
  | nil => simp
  | cons a t ih =>
    rw [List.map_cons, List.filterMap_cons]
    cases hfg a with
    | inl h =>
      rw [h]
      exact ih.cons (g a)
    | inr h =>
      rw [h]
      exact ih.cons₂ (g a)

/-- C9: the listing preserves the underlying enumeration order — the emitted
sequence is a sublist of the raw entry names (directories decorated with the
trailing separator) in enumeration order; the lister itself never sorts. -/
theorem c9_listing_order (fis : FS) :
    List.Sublist (serveFileList fis)
      (fis.map fun e => if e.2.isDir then e.1 ++ ['/'] else e.1) := by
  apply filterMap_sublist_map
  intro e
  unfold listEmit
  by_cases h1 : hasTombSuffix e.1
  · simp [h1]
  · by_cases h2 : e.2.isDir
    · simp [h1, h2]
    · cases ht : tombLookup fis e.1 with
      | none => simp [h1, h2, ht]
      | some ts =>
        by_cases hm : ts.modTime < e.2.modTime <;> simp [h1, h2, ht, hm]

/-- C10: every entry whose name carries the tombstone suffix is treated as a
tombstone by every operation: the lister never emits it, the recursive-delete
walk never tombstones it, and the GC step removes it — also removing the
object at the suffix-stripped path when that object is not strictly newer. -/
theorem c10_suffix_always_tombstone :
    (∀ (fis : FS) (e : Path × FileInfo), hasTombSuffix e.1 = true →
        listEmit fis e = none) ∧
    (∀ (fs : FS) (now : Nat) (e : Path × FileInfo), hasTombSuffix e.1 = true →
        removeAllStep now fs e = fs) ∧
    (∀ (fs : FS) (name : Path) (tstat : FileInfo), hasTombSuffix name = true →
        statRaw (gcStep fs name tstat) name = none ∧
        (∀ fstat, statRaw fs (stripTomb name) = some fstat →
            fstat.modTime ≤ tstat.modTime →
            statRaw (gcStep fs name tstat) (stripTomb name) = none)) := by
  refine ⟨fun fis e h => by simp [listEmit, h],
    fun fs now e h => by simp [removeAllStep, h],
    fun fs name tstat h => ⟨statRaw_gcStep_name fs name tstat,
      fun fstat hf hm => statRaw_gcStep_stripped_stale fs name tstat fstat h hf hm⟩⟩

/-- Witness for C10: the user-written file "b.restfs-deleted" (mtime 9,
bytes [1]) is dropped by the lister, skipped by the recursive-delete walk,
and a GC step on it removes it together with the not-strictly-newer object
"b". -/
theorem c10_suffix_always_tombstone_witness :
    listEmit [(pstr "b.restfs-deleted", ⟨false, 9, [1]⟩)]
        (pstr "b.restfs-deleted", ⟨false, 9, [1]⟩) = none ∧
    removeAllStep 11 [(pstr "b.restfs-deleted", ⟨false, 9, [1]⟩)]
        (pstr "b.restfs-deleted", ⟨false, 9, [1]⟩) =
      [(pstr "b.restfs-deleted", ⟨false, 9, [1]⟩)] ∧
    statRaw (gcStep [(pstr "b", ⟨false, 9, [3]⟩), (pstr "b.restfs-deleted", ⟨false, 9, [1]⟩)]
        (pstr "b.restfs-deleted") ⟨false, 9, [1]⟩) (pstr "b.restfs-deleted") = none ∧
    statRaw (gcStep [(pstr "b", ⟨false, 9, [3]⟩), (pstr "b.restfs-deleted", ⟨false, 9, [1]⟩)]
        (pstr "b.restfs-deleted") ⟨false, 9, [1]⟩) (stripTomb (pstr "b.restfs-deleted")) =
      none :=
  ⟨c10_suffix_always_tombstone.1 _ _ (by decide),
    c10_suffix_always_tombstone.2.1 _ 11 _ (by decide),
    (c10_suffix_always_tombstone.2.2 _ _ _ (by decide)).1,
    (c10_suffix_always_tombstone.2.2 _ _ _ (by decide)).2 ⟨false, 9, [3]⟩ (by decide)
      (by decide)⟩

end Restfs
